import Mathlib

/-!
# Verification of the stegosaurus LSB byte codec

Shallow embedding of `src/byte.rs` (the `stegosaurus::byte` module, the one
exported to and used by `main.rs`).  Bytes are modelled as `Nat` values
(< 256 where the Rust type is `u8`); mutable slices are modelled by
functions returning the buffer contents after the call; Rust panics
(out-of-range slice indexing) are modelled by `Option`, with `none` for a
panic.  `usize` is modelled as a 64-bit word, so `size_of::<usize>() = 8`.
-/

namespace Stego

/-- `u8::BITS` as a `usize` (always 8). -/
def u8BITS : Nat := 8

/-- `std::mem::size_of::<usize>()` on a 64-bit platform. -/
def WORD_SIZE : Nat := 8

/-- The `Error::BufferTooSmall { actual, required }` variant from `byte.rs`
(the crate's capacity error). -/
structure BufferTooSmall where
  actual : Nat
  required : Nat
deriving DecidableEq, Repr

/-- `fn bytes_per_byte(step) = u8::BITS as usize / step`: carrier bytes
consumed per payload byte. -/
def bytes_per_byte (step : Nat) : Nat := u8BITS / step

/-- The inner loop of `encode_raw_unsafe`:
`for bit_write in 0..step { let insert = (byte_in & (1 << bit_read)) >> bit_read;
 let old = *slot & !(1 << bit_write); *slot = old | (insert << bit_write); bit_read += 1 }`.
`!x` on a `u8` is `255 ^^^ x`.  The fuel argument is the number of loop
iterations left (`step` at the initial call, with `bw = 0`). -/
def encodeBitsAux (byteIn : Nat) (slot : Nat) (br bw : Nat) : Nat → Nat
  | 0 => slot
  | fuel + 1 =>
      encodeBitsAux byteIn
        ((slot &&& (255 ^^^ (1 <<< bw))) ||| (((byteIn &&& (1 <<< br)) >>> br) <<< bw))
        (br + 1) (bw + 1) fuel

/-- The middle loop of `encode_raw_unsafe`: `for slot in (&mut it).take(space)`,
writing one payload byte into the next `space` carrier bytes, `step` bits per
carrier byte, LSB first (`bit_read` starts at `br` and advances by `step`
per slot).  The count argument is `space`; if the iterator runs out the
loop simply ends. -/
def encodeByteAux (byteIn step br : Nat) : List Nat → Nat → List Nat
  | slots, 0 => slots
  | [], _ + 1 => []
  | slot :: rest, n + 1 =>
      encodeBitsAux byteIn slot br 0 step :: encodeByteAux byteIn step (br + step) rest n

/-- `unsafe fn encode_raw_unsafe(buffer, data, step)`: the contents of
`buffer` after the call.  The Rust function mutates `buffer` in place and
returns `&mut buffer[data.len() * space ..]`; that returned remainder is
`(encodeRawUnsafe buffer data step).drop (data.length * bytes_per_byte step)`. -/
def encodeRawUnsafe (buffer data : List Nat) (step : Nat) : List Nat :=
  match data with
  | [] => buffer
  | b :: ds =>
      let space := bytes_per_byte step
      let buf := encodeByteAux b step 0 buffer space
      buf.take space ++ encodeRawUnsafe (buf.drop space) ds step

/-- `pub fn encode_raw(buffer, data, step)` from `byte.rs`: checks
`buffer.len() < data.len() * bytes_per_byte(step)` and on failure returns
`Error::BufferTooSmall { actual: buffer.len(), required: data.len() * step }`
(sic: the `required` field multiplies by `step`, not `bytes_per_byte(step)`).
On success the `ok` value is the whole buffer after mutation; the Rust
return value is its `drop (data.length * bytes_per_byte step)` tail. -/
def encode_raw (buffer data : List Nat) (step : Nat) :
    Except BufferTooSmall (List Nat) :=
  if buffer.length < data.length * bytes_per_byte step then
    Except.error ⟨buffer.length, data.length * step⟩
  else
    Except.ok (encodeRawUnsafe buffer data step)

/-- The contents of the carrier after an `encode_raw` call: the capacity
guard precedes the call to `encode_raw_unsafe`, so on the error path the
buffer is returned untouched. -/
def encode_raw_carrier_after (buffer data : List Nat) (step : Nat) : List Nat :=
  match encode_raw buffer data step with
  | Except.ok buf => buf
  | Except.error _ => buffer

/-- Model of the Rust intrinsic `u8::reverse_bits`: reverses the 8 bits of
a byte. -/
def reverseBits8 (x : Nat) : Nat :=
  (x % 2) * 128 + (x / 2 % 2) * 64 + (x / 4 % 2) * 32 + (x / 8 % 2) * 16 +
  (x / 16 % 2) * 8 + (x / 32 % 2) * 4 + (x / 64 % 2) * 2 + (x / 128 % 2)

/-- The inner loop of `decode_byte`:
`for bit_read in 0..step { current <<= 1; current |= (*slot & (1 << bit_read)) >> bit_read }`.
`current` is a `u8`, hence the `% 256` on the shift.  The fuel argument is
the number of iterations left (`step` initially, with `br = 0`). -/
def decodeBits (slot : Nat) (current : Nat) (br : Nat) : Nat → Nat
  | 0 => current
  | fuel + 1 =>
      decodeBits slot (((current <<< 1) % 256) ||| ((slot &&& (1 <<< br)) >>> br))
        (br + 1) fuel

/-- `fn decode_byte(buffer, step)` from `byte.rs`: accumulates the low
`step` bits of every slot of `buffer` MSB-first into `current`, counting
extracted bits in `bit` (a `u8`, hence `% 256`), and returns
`Some(current.reverse_bits())` iff exactly 8 bits were read. -/
def decode_byte (buffer : List Nat) (step : Nat) : Option Nat :=
  let cb := buffer.foldl
    (fun (cb : Nat × Nat) slot => (decodeBits slot cb.1 0 step, (cb.2 + step) % 256))
    (0, 0)
  if cb.2 = 8 then some (reverseBits8 cb.1) else none

/-- The loop `for index in (0..buffer.len()).step_by(bpb).take(size)` of
`decode_raw`, with its body.  The iterator yields `index` while
`index < buffer.len()` and fewer than `size` items were produced.  The body
slices `&buffer[index..index + bpb]`, which panics (`none`) when
`index + bpb > buffer.len()`; `decode_byte` returning `None` breaks out of
the loop, keeping the bytes pushed so far. -/
def decodeRawLoop (buffer : List Nat) (step bpb : Nat) : Nat → Nat → Option (List Nat)
  | _, 0 => some []
  | index, size + 1 =>
      if index < buffer.length then
        if index + bpb ≤ buffer.length then
          match decode_byte ((buffer.drop index).take bpb) step with
          | some b => (decodeRawLoop buffer step bpb (index + bpb) size).map (b :: ·)
          | none => some []
        else none
      else some []

/-- `pub fn decode_raw(buffer, size, step)` from `byte.rs`: runs the loop
above and then returns `(&buffer[size * bpb ..], out)`.  The final slice
panics (`none`) when `size * bpb > buffer.len()`. -/
def decode_raw (buffer : List Nat) (size step : Nat) :
    Option (List Nat × List Nat) :=
  let bpb := bytes_per_byte step
  match decodeRawLoop buffer step bpb 0 size with
  | none => none
  | some out =>
      if size * bpb ≤ buffer.length then some (buffer.drop (size * bpb), out)
      else none

/-- `usize::to_be_bytes` on a 64-bit platform: the 8 bytes of `n`,
most significant first. -/
def toBeBytes (n : Nat) : List Nat :=
  [n >>> 56 &&& 255, n >>> 48 &&& 255, n >>> 40 &&& 255, n >>> 32 &&& 255,
   n >>> 24 &&& 255, n >>> 16 &&& 255, n >>> 8 &&& 255, n &&& 255]

/-- `usize::from_be_bytes` on 8 bytes (each < 256), most significant first. -/
def fromBeBytes (l : List Nat) : Nat :=
  l.foldl (fun acc b => acc * 256 + b) 0

/-- `pub fn encode(buffer, data, step)` from `byte.rs`: packs
`data.len().to_be_bytes()` with `encode_raw`, then packs `data` into the
returned remainder.  The `ok` value is the whole carrier after both
writes; the Rust return value is its
`drop ((WORD_SIZE + data.length) * bytes_per_byte step)` tail. -/
def encode (buffer data : List Nat) (step : Nat) :
    Except BufferTooSmall (List Nat) :=
  let size := toBeBytes data.length
  match encode_raw buffer size step with
  | Except.error e => Except.error e
  | Except.ok buf1 =>
      let lenField := buf1.take (size.length * bytes_per_byte step)
      let rest := buf1.drop (size.length * bytes_per_byte step)
      match encode_raw rest data step with
      | Except.error e => Except.error e
      | Except.ok buf2 => Except.ok (lenField ++ buf2)

/-- `pub fn decode(buffer, step)` from `byte.rs`: decodes a
`size_of::<usize>()`-byte big-endian length, then that many payload bytes.
The outer `Option` models the Rust panics of the `decode_raw` calls;
`Except` is the function's own `Result`. -/
def decode (buffer : List Nat) (step : Nat) :
    Option (Except BufferTooSmall (List Nat)) :=
  match decode_raw buffer WORD_SIZE step with
  | none => none
  | some (buf, size) =>
      if size.length ≠ WORD_SIZE then
        some (Except.error ⟨size.length, WORD_SIZE⟩)
      else
        let n := fromBeBytes size
        match decode_raw buf n step with
        | none => none
        | some (_, data) =>
            if data.length ≠ n then some (Except.error ⟨buf.length, n⟩)
            else some (Except.ok data)

/-- Proof-side specification: the bit-reversal of the low `n` bits of `b`
(bit `k` of `b` gets weight `2 ^ (n - 1 - k)`). -/
def revLow (b : Nat) : Nat → Nat
  | 0 => 0
  | n + 1 => revLow b n * 2 + (b.testBit n).toNat

/-- Proof-side specification: bits `br, br+1, ..., br+n-1` of `x`
accumulated MSB-first (bit `br` gets the highest weight `2 ^ (n - 1)`). -/
def bitsRev (x br : Nat) : Nat → Nat
  | 0 => 0
  | n + 1 => (x.testBit br).toNat * 2 ^ n + bitsRev x (br + 1) n

/-! ## Bit-level lemmas about the encoder's inner loop -/

theorem extract_bit (b br : Nat) :
    (b &&& (1 <<< br)) >>> br = (b.testBit br).toNat := by
  rw [Nat.shiftLeft_eq, one_mul, Nat.and_two_pow, Nat.shiftRight_eq_div_pow,
    Nat.mul_div_cancel _ (Nat.pos_pow_of_pos br (by norm_num))]

theorem extract_bit_le (b br : Nat) : (b &&& (1 <<< br)) >>> br ≤ 1 := by
  rw [extract_bit]; cases b.testBit br <;> simp

theorem encodeBitsAux_lt (fuel : Nat) :
    ∀ b slot br bw, slot < 256 → bw + fuel ≤ 8 →
      encodeBitsAux b slot br bw fuel < 256 := by
  induction fuel with
  | zero => intro b slot br bw h _; exact h
  | succ n ih =>
      intro b slot br bw h hbw
      apply ih
      · show _ < 2 ^ 8
        apply Nat.or_lt_two_pow
        · exact Nat.and_lt_two_pow _ (Nat.xor_lt_two_pow (by norm_num)
            (by rw [Nat.shiftLeft_eq, one_mul]
                exact Nat.pow_lt_pow_right (by norm_num) (by omega)))
        · rw [Nat.shiftLeft_eq]
          calc (b &&& (1 <<< br)) >>> br * 2 ^ bw ≤ 1 * 2 ^ bw :=
                Nat.mul_le_mul_right _ (extract_bit_le b br)
            _ < 2 ^ 8 := by rw [one_mul]; exact Nat.pow_lt_pow_right (by norm_num) (by omega)
      · omega

theorem encodeBitsAux_testBit (fuel : Nat) :
    ∀ b slot br bw, slot < 256 → bw + fuel ≤ 8 → ∀ j,
      (encodeBitsAux b slot br bw fuel).testBit j =
        if bw ≤ j ∧ j < bw + fuel then b.testBit (br + (j - bw))
        else slot.testBit j := by
  induction fuel with
  | zero =>
      intro b slot br bw _ _ j
      simp only [encodeBitsAux]
      rw [if_neg (by omega)]
  | succ n ih =>
      intro b slot br bw hslot hbw j
      have hmask : (255 : Nat) ^^^ (1 <<< bw) < 2 ^ 8 := by
        apply Nat.xor_lt_two_pow (by norm_num)
        rw [Nat.shiftLeft_eq, one_mul]
        exact Nat.pow_lt_pow_right (by norm_num) (by omega)
      have hnew : (slot &&& (255 ^^^ (1 <<< bw))) |||
          (((b &&& (1 <<< br)) >>> br) <<< bw) < 2 ^ 8 := by
        apply Nat.or_lt_two_pow (Nat.and_lt_two_pow _ hmask)
        rw [Nat.shiftLeft_eq]
        calc (b &&& (1 <<< br)) >>> br * 2 ^ bw ≤ 1 * 2 ^ bw :=
              Nat.mul_le_mul_right _ (extract_bit_le b br)
          _ < 2 ^ 8 := by rw [one_mul]; exact Nat.pow_lt_pow_right (by norm_num) (by omega)
      have hnew' : (slot &&& (255 ^^^ (1 <<< bw))) |||
          (((b &&& (1 <<< br)) >>> br) <<< bw) < 256 := by
        calc _ < 2 ^ 8 := hnew
          _ = 256 := by norm_num
      show (encodeBitsAux b _ (br + 1) (bw + 1) n).testBit j = _
      rw [ih b _ (br + 1) (bw + 1) hnew' (by omega) j]
      by_cases hj1 : bw + 1 ≤ j ∧ j < bw + 1 + n
      · rw [if_pos hj1, if_pos (by omega)]
        congr 1
        omega
      · rw [if_neg hj1]
        have hb1 : (1 : Nat) <<< bw = 2 ^ bw := by rw [Nat.shiftLeft_eq, one_mul]
        have h255 : (255 : Nat) = 2 ^ 8 - 1 := by norm_num
        rw [Nat.testBit_or, Nat.testBit_and, Nat.testBit_xor, hb1, h255,
          Nat.testBit_two_pow_sub_one, Nat.testBit_two_pow,
          Nat.testBit_shiftLeft, extract_bit]
        by_cases hjbw : j = bw
        · subst hjbw
          rw [if_pos (by omega)]
          have hj8 : decide (j < 8) = true := by simp; omega
          have hjj : decide (j = j) = true := by simp
          have hge : decide (j ≥ j) = true := by simp
          rw [hj8, hjj, hge, Nat.sub_self, Nat.add_zero, Bool.xor_self,
            Bool.and_false, Bool.false_or, Bool.true_and]
          cases hb : b.testBit br <;> simp
        · rw [if_neg (by omega)]
          have hbwj : decide (bw = j) = false := by simp [hjbw]; omega
          have hright : (decide (j ≥ bw) && ((b.testBit br).toNat).testBit (j - bw)) =
              false := by
            by_cases hge : bw ≤ j
            · have h1 : ((b.testBit br).toNat).testBit (j - bw) = false := by
                apply Nat.testBit_eq_false_of_lt
                calc (b.testBit br).toNat ≤ 1 := by cases b.testBit br <;> simp
                  _ < 2 ^ 1 := by norm_num
                  _ ≤ 2 ^ (j - bw) := Nat.pow_le_pow_right (by norm_num) (by omega)
              simp [h1]
            · simp [ge_iff_le, hge]
          rw [hbwj, hright, Bool.or_false, Bool.xor_false]
          by_cases hj8 : j < 8
          · simp [hj8]
          · have h256 : (256 : Nat) ≤ 2 ^ j := by
              calc (256 : Nat) = 2 ^ 8 := by norm_num
                _ ≤ 2 ^ j := Nat.pow_le_pow_right (by norm_num) (by omega)
            have h1 : slot.testBit j = false :=
              Nat.testBit_eq_false_of_lt (Nat.lt_of_lt_of_le hslot h256)
            simp [hj8, h1]

theorem encodeBitsAux_high (b slot br step : Nat) (hslot : slot < 256)
    (hstep : step ≤ 8) :
    encodeBitsAux b slot br 0 step / 2 ^ step = slot / 2 ^ step := by
  rw [← Nat.shiftRight_eq_div_pow, ← Nat.shiftRight_eq_div_pow]
  apply Nat.eq_of_testBit_eq
  intro i
  rw [Nat.testBit_shiftRight, Nat.testBit_shiftRight,
    encodeBitsAux_testBit step b slot br 0 hslot (by omega) (step + i),
    if_neg (by omega)]

/-! ## Structural lemmas about `encodeByteAux` and `encodeRawUnsafe` -/

theorem encodeByteAux_length (b step : Nat) :
    ∀ (slots : List Nat) (br n : Nat),
      (encodeByteAux b step br slots n).length = slots.length := by
  intro slots
  induction slots with
  | nil => intro br n; cases n <;> rfl
  | cons slot rest ih =>
      intro br n
      cases n with
      | zero => rfl
      | succ m => simp [encodeByteAux, ih]

theorem encodeByteAux_drop (b step : Nat) :
    ∀ (slots : List Nat) (br n : Nat),
      (encodeByteAux b step br slots n).drop n = slots.drop n := by
  intro slots
  induction slots with
  | nil => intro br n; cases n <;> rfl
  | cons slot rest ih =>
      intro br n
      cases n with
      | zero => rfl
      | succ m => simp [encodeByteAux, ih]

theorem encodeByteAux_take (b step : Nat) :
    ∀ (slots : List Nat) (br n : Nat),
      (encodeByteAux b step br slots n).take n =
        encodeByteAux b step br (slots.take n) n := by
  intro slots
  induction slots with
  | nil => intro br n; cases n <;> rfl
  | cons slot rest ih =>
      intro br n
      cases n with
      | zero => rfl
      | succ m => simp [encodeByteAux, ih]

theorem encodeByteAux_mem_lt (b step : Nat) (hstep : step ≤ 8) :
    ∀ (slots : List Nat) (br n : Nat), (∀ s ∈ slots, s < 256) →
      ∀ x ∈ encodeByteAux b step br slots n, x < 256 := by
  intro slots
  induction slots with
  | nil => intro br n _ x hx; cases n <;> simp [encodeByteAux] at hx
  | cons slot rest ih =>
      intro br n hmem x hx
      cases n with
      | zero => exact hmem x hx
      | succ m =>
          simp only [encodeByteAux, List.mem_cons] at hx
          rcases hx with h | h
          · subst h
            exact encodeBitsAux_lt step b slot br 0 (hmem slot (by simp)) (by omega)
          · exact ih (br + step) m (fun s hs => hmem s (by simp [hs])) x h

theorem encodeByteAux_getD_div (b step : Nat) (hstep : step ≤ 8) :
    ∀ (slots : List Nat) (br n i : Nat), (∀ s ∈ slots, s < 256) →
      (encodeByteAux b step br slots n).getD i 0 / 2 ^ step =
        slots.getD i 0 / 2 ^ step := by
  intro slots
  induction slots with
  | nil => intro br n i _; cases n <;> rfl
  | cons slot rest ih =>
      intro br n i hmem
      cases n with
      | zero => rfl
      | succ m =>
          cases i with
          | zero =>
              simp only [encodeByteAux, List.getD_cons_zero]
              exact encodeBitsAux_high b slot br step (hmem slot (by simp)) hstep
          | succ k =>
              simp only [encodeByteAux, List.getD_cons_succ]
              exact ih (br + step) m k (fun s hs => hmem s (by simp [hs]))

theorem encodeRawUnsafe_length (step : Nat) :
    ∀ (data buffer : List Nat),
      (encodeRawUnsafe buffer data step).length = buffer.length := by
  intro data
  induction data with
  | nil => intro buffer; rfl
  | cons b ds ih =>
      intro buffer
      simp only [encodeRawUnsafe]
      rw [List.length_append, List.length_take, ih, List.length_drop,
        encodeByteAux_length]
      omega

theorem encodeByteAux_nil (b step br n : Nat) :
    encodeByteAux b step br [] n = [] := by
  cases n <;> rfl

theorem encodeRawUnsafe_nil (step : Nat) :
    ∀ data : List Nat, encodeRawUnsafe [] data step = [] := by
  intro data
  induction data with
  | nil => rfl
  | cons b ds ih => simp [encodeRawUnsafe, encodeByteAux_nil, ih]

theorem encodeRawUnsafe_drop_ge (step : Nat) :
    ∀ (data buffer : List Nat) (k : Nat), data.length * bytes_per_byte step ≤ k →
      (encodeRawUnsafe buffer data step).drop k = buffer.drop k := by
  intro data
  induction data with
  | nil => intro buffer k _; rfl
  | cons b ds ih =>
      intro buffer k hk
      simp only [List.length_cons] at hk
      simp only [encodeRawUnsafe]
      rw [List.drop_append_eq_append_drop]
      have hlen : (List.take (bytes_per_byte step)
          (encodeByteAux b step 0 buffer (bytes_per_byte step))).length =
          min (bytes_per_byte step) buffer.length := by
        rw [List.length_take, encodeByteAux_length]
      have hsp : bytes_per_byte step ≤ k := by
        have := Nat.le_mul_of_pos_left (bytes_per_byte step)
          (show 0 < ds.length + 1 by omega)
        omega
      rw [List.drop_eq_nil_of_le (by rw [hlen]; omega), List.nil_append, hlen]
      by_cases hcap : bytes_per_byte step ≤ buffer.length
      · rw [Nat.min_eq_left hcap, encodeByteAux_drop, ih _ _ (by
          have : (ds.length + 1) * bytes_per_byte step =
            ds.length * bytes_per_byte step + bytes_per_byte step := by ring
          omega)]
        rw [List.drop_drop]
        congr 1
        omega
      · have hb : List.drop (bytes_per_byte step) buffer = [] :=
          List.drop_eq_nil_of_le (by omega)
        rw [Nat.min_eq_right (by omega), encodeByteAux_drop, hb,
          encodeRawUnsafe_nil, List.drop_nil, List.drop_eq_nil_of_le (by omega)]

theorem encodeRawUnsafe_drop (step : Nat) (data buffer : List Nat) :
    (encodeRawUnsafe buffer data step).drop (data.length * bytes_per_byte step) =
      buffer.drop (data.length * bytes_per_byte step) :=
  encodeRawUnsafe_drop_ge step data buffer _ (le_refl _)

/-! ## The decoder's accumulator -/

theorem two_mul_lor (k t : Nat) (ht : t ≤ 1) : 2 * k ||| t = 2 * k + t := by
  interval_cases t
  · simp
  · apply Nat.eq_of_testBit_eq
    intro i
    cases i with
    | zero =>
        have h0 : 2 * k % 2 = 0 := by omega
        have h1 : (2 * k + 1) % 2 = 1 := by omega
        simp [Nat.testBit_or, Nat.testBit_zero, h0, h1]
    | succ j =>
        have h0 : 2 * k / 2 = k := by omega
        have h1 : (2 * k + 1) / 2 = k := by omega
        have h2 : (1 : Nat) / 2 = 0 := by omega
        rw [Nat.testBit_or, Nat.testBit_succ, Nat.testBit_succ, Nat.testBit_succ,
          h0, h1, h2]
        simp

theorem decodeBits_eq : ∀ (fuel : Nat) (slot current br : Nat), fuel ≤ 8 →
    current < 2 ^ (8 - fuel) →
    decodeBits slot current br fuel = current * 2 ^ fuel + bitsRev slot br fuel := by
  intro fuel
  induction fuel with
  | zero => intro slot current br _ _; simp [decodeBits, bitsRev]
  | succ n ih =>
      intro slot current br hf hc
      have hpow : (2 : Nat) ^ (8 - n) = 2 * 2 ^ (8 - (n + 1)) := by
        rw [← pow_succ']
        congr 1
        omega
      have hpow8 : (2 : Nat) ^ (8 - n) ≤ 2 ^ 8 := Nat.pow_le_pow_right (by norm_num) (by omega)
      have h256 : (2 : Nat) ^ 8 = 256 := by norm_num
      have hs : current <<< 1 = 2 * current := by rw [Nat.shiftLeft_eq]; ring
      have hmod : 2 * current % 256 = 2 * current := Nat.mod_eq_of_lt (by omega)
      have ht : (slot.testBit br).toNat ≤ 1 := by cases slot.testBit br <;> simp
      show decodeBits slot (((current <<< 1) % 256) ||| ((slot &&& (1 <<< br)) >>> br))
          (br + 1) n = _
      rw [hs, hmod, extract_bit, two_mul_lor _ _ ht,
        ih slot _ (br + 1) (by omega) (by omega)]
      show (2 * current + (slot.testBit br).toNat) * 2 ^ n + bitsRev slot (br + 1) n =
        current * 2 ^ (n + 1) + ((slot.testBit br).toNat * 2 ^ n + bitsRev slot (br + 1) n)
      ring

theorem revLow_lt (b : Nat) : ∀ n, revLow b n < 2 ^ n := by
  intro n
  induction n with
  | zero => simp [revLow]
  | succ m ih =>
      have ht : (b.testBit m).toNat ≤ 1 := by cases b.testBit m <;> simp
      show revLow b m * 2 + (b.testBit m).toNat < 2 ^ (m + 1)
      have : (2 : Nat) ^ (m + 1) = 2 ^ m * 2 := by ring
      omega

theorem bitsRev_congr : ∀ (n : Nat) (x xr y yr : Nat),
    (∀ j, j < n → x.testBit (xr + j) = y.testBit (yr + j)) →
    bitsRev x xr n = bitsRev y yr n := by
  intro n
  induction n with
  | zero => intro x xr y yr _; rfl
  | succ m ih =>
      intro x xr y yr h
      show (x.testBit xr).toNat * 2 ^ m + bitsRev x (xr + 1) m =
        (y.testBit yr).toNat * 2 ^ m + bitsRev y (yr + 1) m
      have h0 := h 0 (by omega)
      rw [Nat.add_zero, Nat.add_zero] at h0
      rw [h0, ih x (xr + 1) y (yr + 1) (fun j hj => by
        have e1 : xr + 1 + j = xr + (j + 1) := by omega
        have e2 : yr + 1 + j = yr + (j + 1) := by omega
        rw [e1, e2]
        exact h (j + 1) (by omega))]

theorem bitsRev_snoc (b : Nat) : ∀ (s br : Nat),
    bitsRev b br (s + 1) = 2 * bitsRev b br s + (b.testBit (br + s)).toNat := by
  intro s
  induction s with
  | zero =>
      intro br
      show (b.testBit br).toNat * 2 ^ 0 + bitsRev b (br + 1) 0 = _
      simp [bitsRev]
  | succ m ih =>
      intro br
      show (b.testBit br).toNat * 2 ^ (m + 1) + bitsRev b (br + 1) (m + 1) = _
      rw [ih (br + 1)]
      show _ = 2 * ((b.testBit br).toNat * 2 ^ m + bitsRev b (br + 1) m) +
        (b.testBit (br + (m + 1))).toNat
      have harr : br + 1 + m = br + (m + 1) := by omega
      rw [harr]
      ring

theorem revLow_add (b : Nat) : ∀ (s br : Nat),
    revLow b (br + s) = revLow b br * 2 ^ s + bitsRev b br s := by
  intro s
  induction s with
  | zero => intro br; simp [bitsRev]
  | succ m ih =>
      intro br
      show revLow b (br + m + 1) = _
      show revLow b (br + m) * 2 + (b.testBit (br + m)).toNat = _
      rw [ih br, bitsRev_snoc]
      ring

theorem fold_decode_encodeByteAux (b step : Nat) :
    ∀ (slots : List Nat) (br : Nat), (∀ s ∈ slots, s < 256) →
      br + slots.length * step ≤ 8 → 0 < step →
      List.foldl
        (fun (cb : Nat × Nat) slot => (decodeBits slot cb.1 0 step, (cb.2 + step) % 256))
        (revLow b br, br) (encodeByteAux b step br slots slots.length) =
      (revLow b (br + slots.length * step), br + slots.length * step) := by
  intro slots
  induction slots with
  | nil => intro br _ _ _; simp [encodeByteAux]
  | cons slot rest ih =>
      intro br hmem hle hstep
      have hle' : br + step + rest.length * step ≤ 8 := by
        have : (rest.length + 1) * step = rest.length * step + step := by ring
        simp only [List.length_cons] at hle
        omega
      have hstep8 : step ≤ 8 := by omega
      have hbrstep : br + step ≤ 8 := by omega
      simp only [List.length_cons, encodeByteAux, List.foldl_cons]
      have hmod : (br + step) % 256 = br + step := Nat.mod_eq_of_lt (by omega)
      have hcur : revLow b br < 2 ^ (8 - step) := by
        calc revLow b br < 2 ^ br := revLow_lt b br
          _ ≤ 2 ^ (8 - step) := Nat.pow_le_pow_right (by norm_num) (by omega)
      rw [decodeBits_eq step _ _ 0 hstep8 hcur, hmod]
      have hbits : bitsRev (encodeBitsAux b slot br 0 step) 0 step = bitsRev b br step := by
        apply bitsRev_congr
        intro j hj
        rw [Nat.zero_add,
          encodeBitsAux_testBit step b slot br 0 (hmem slot (by simp)) (by omega) j,
          if_pos (by omega)]
        simp
      rw [hbits, ← revLow_add b step br,
        ih (br + step) (fun s hs => hmem s (by simp [hs])) hle' hstep]
      have harith : br + step + rest.length * step = br + (rest.length + 1) * step := by
        ring
      rw [harith]

theorem revLow_eight (b : Nat) : revLow b 8 = reverseBits8 b := by
  show revLow b 8 = _
  simp only [revLow, Nat.toNat_testBit, reverseBits8]
  norm_num
  omega

set_option maxRecDepth 4000 in
theorem reverseBits8_involution : ∀ x, x < 256 → reverseBits8 (reverseBits8 x) = x := by
  decide

theorem decode_encode_byte (b step : Nat) (slots : List Nat)
    (hmem : ∀ s ∈ slots, s < 256) (hb : b < 256) (hstep : 0 < step)
    (hlen : slots.length * step = 8) :
    decode_byte (encodeByteAux b step 0 slots slots.length) step = some b := by
  unfold decode_byte
  have h0 : revLow b 0 = 0 := rfl
  have hfold := fold_decode_encodeByteAux b step slots 0 hmem (by omega) hstep
  rw [h0] at hfold
  simp only [hfold, Nat.zero_add, hlen, if_true]
  rw [revLow_eight, reverseBits8_involution b hb]

/-! ## The decode loop on an encoded buffer -/

theorem encodeRawUnsafe_mem_lt (step : Nat) (hstep : step ≤ 8) :
    ∀ (data buffer : List Nat), (∀ s ∈ buffer, s < 256) →
      ∀ x ∈ encodeRawUnsafe buffer data step, x < 256 := by
  intro data
  induction data with
  | nil => intro buffer h x hx; exact h x hx
  | cons b ds ih =>
      intro buffer h x hx
      simp only [encodeRawUnsafe, List.mem_append] at hx
      have hbuf : ∀ y ∈ encodeByteAux b step 0 buffer (bytes_per_byte step), y < 256 :=
        encodeByteAux_mem_lt b step hstep buffer 0 (bytes_per_byte step) h
      rcases hx with hx | hx
      · exact hbuf x (List.take_subset _ _ hx)
      · exact ih _ (fun y hy => hbuf y (List.drop_subset _ _ hy)) x hx

theorem decodeRawLoop_shift (step bpb : Nat) :
    ∀ (size : Nat) (A B : List Nat) (i : Nat),
      decodeRawLoop (A ++ B) step bpb (A.length + i) size =
        decodeRawLoop B step bpb i size := by
  intro size
  induction size with
  | zero => intro A B i; rfl
  | succ n ih =>
      intro A B i
      have hlen : (A ++ B).length = A.length + B.length := List.length_append A B
      have hdrop : (A ++ B).drop (A.length + i) = B.drop i := by
        rw [List.drop_append_eq_append_drop, List.drop_eq_nil_of_le (by omega),
          List.nil_append]
        congr 1
        omega
      simp only [decodeRawLoop]
      by_cases h1 : i < B.length
      · rw [if_pos (by omega), if_pos h1]
        by_cases h2 : i + bpb ≤ B.length
        · rw [if_pos (by omega), if_pos h2, hdrop]
          have harith : A.length + i + bpb = A.length + (i + bpb) := by omega
          rw [harith, ih]
        · rw [if_neg (by omega), if_neg h2]
      · rw [if_neg (by omega), if_neg h1]

theorem decodeRawLoop_agree (step bpb : Nat) (hbpb : 0 < bpb) :
    ∀ (size : Nat) (i m : Nat) (A B : List Nat), i + size * bpb ≤ m →
      A.take m = B.take m → m ≤ A.length → m ≤ B.length →
      decodeRawLoop A step bpb i size = decodeRawLoop B step bpb i size := by
  intro size
  induction size with
  | zero => intro i m A B _ _ _ _; rfl
  | succ n ih =>
      intro i m A B hm htake hA hB
      have hexp : (n + 1) * bpb = n * bpb + bpb := by ring
      have hi : i + bpb ≤ m := by omega
      have hsliceA : (A.drop i).take bpb = ((A.take m).drop i).take bpb := by
        rw [List.take_drop, List.take_drop, List.take_take]
        congr 2
        omega
      have hsliceB : (B.drop i).take bpb = ((B.take m).drop i).take bpb := by
        rw [List.take_drop, List.take_drop, List.take_take]
        congr 2
        omega
      have hslice : (A.drop i).take bpb = (B.drop i).take bpb := by
        rw [hsliceA, hsliceB, htake]
      simp only [decodeRawLoop]
      rw [if_pos (by omega), if_pos (by omega), if_pos (by omega), if_pos (by omega),
        hslice]
      have hrec : decodeRawLoop A step bpb (i + bpb) n =
          decodeRawLoop B step bpb (i + bpb) n :=
        ih (i + bpb) m A B (by omega) htake hA hB
      rw [hrec]

theorem decodeRawLoop_encodeRawUnsafe (step : Nat) (hstep : 0 < step)
    (hbs : bytes_per_byte step * step = 8) :
    ∀ (data buffer : List Nat), (∀ x ∈ data, x < 256) → (∀ s ∈ buffer, s < 256) →
      data.length * bytes_per_byte step ≤ buffer.length →
      decodeRawLoop (encodeRawUnsafe buffer data step) step (bytes_per_byte step) 0
        data.length = some data := by
  intro data
  induction data with
  | nil => intro buffer _ _ _; rfl
  | cons b ds ih =>
      intro buffer hd hbuf hcap
      have hbpb : 0 < bytes_per_byte step := by
        rcases Nat.eq_zero_or_pos (bytes_per_byte step) with h | h
        · rw [h] at hbs
          simp at hbs
        · exact h
      have hstep8 : step ≤ 8 := by
        calc step = 1 * step := (one_mul step).symm
          _ ≤ bytes_per_byte step * step := Nat.mul_le_mul_right step hbpb
          _ = 8 := hbs
      have hexp : (ds.length + 1) * bytes_per_byte step =
          ds.length * bytes_per_byte step + bytes_per_byte step := by ring
      simp only [List.length_cons] at hcap
      have hsple : bytes_per_byte step ≤ buffer.length := by omega
      have hbuflen : (encodeByteAux b step 0 buffer (bytes_per_byte step)).length =
          buffer.length := encodeByteAux_length b step buffer 0 _
      have hTlen : ((encodeByteAux b step 0 buffer (bytes_per_byte step)).take
          (bytes_per_byte step)).length = bytes_per_byte step := by
        rw [List.length_take, hbuflen]
        omega
      have hdropbuf : (encodeByteAux b step 0 buffer (bytes_per_byte step)).drop
          (bytes_per_byte step) = buffer.drop (bytes_per_byte step) :=
        encodeByteAux_drop b step buffer 0 _
      have hRlen : (encodeRawUnsafe ((encodeByteAux b step 0 buffer
          (bytes_per_byte step)).drop (bytes_per_byte step)) ds step).length =
          buffer.length - bytes_per_byte step := by
        rw [encodeRawUnsafe_length, hdropbuf, List.length_drop]
      simp only [encodeRawUnsafe, List.length_cons]
      simp only [decodeRawLoop]
      rw [if_pos (by rw [List.length_append, hTlen, hRlen]; omega),
        if_pos (by rw [List.length_append, hTlen, hRlen]; omega)]
      have hslice : ((((encodeByteAux b step 0 buffer (bytes_per_byte step)).take
          (bytes_per_byte step)) ++ (encodeRawUnsafe ((encodeByteAux b step 0 buffer
          (bytes_per_byte step)).drop (bytes_per_byte step)) ds step)).drop 0).take
          (bytes_per_byte step) =
          encodeByteAux b step 0 (buffer.take (bytes_per_byte step))
            (bytes_per_byte step) := by
        rw [List.drop_zero, List.take_left' hTlen, encodeByteAux_take]
      rw [hslice]
      have htakelen : (buffer.take (bytes_per_byte step)).length =
          bytes_per_byte step := by
        rw [List.length_take]
        omega
      have hdec : decode_byte (encodeByteAux b step 0
          (buffer.take (bytes_per_byte step)) (bytes_per_byte step)) step = some b := by
        have := decode_encode_byte b step (buffer.take (bytes_per_byte step))
          (fun s hs => hbuf s (List.take_subset _ _ hs)) (hd b (by simp)) hstep
          (by rw [htakelen]; exact hbs)
        rwa [htakelen] at this
      rw [hdec]
      have hidx : 0 + bytes_per_byte step =
          ((encodeByteAux b step 0 buffer (bytes_per_byte step)).take
            (bytes_per_byte step)).length + 0 := by
        rw [hTlen]
        omega
      rw [hidx, decodeRawLoop_shift]
      rw [hdropbuf]
      rw [ih (buffer.drop (bytes_per_byte step)) (fun x hx => hd x (by simp [hx]))
        (fun s hs => hbuf s (List.drop_subset _ _ hs))
        (by rw [List.length_drop]; omega)]
      rfl

/-! ## Assembly lemmas -/

theorem getD_take (l : List Nat) : ∀ (k i d : Nat), i < k →
    (l.take k).getD i d = l.getD i d := by
  induction l with
  | nil => intro k i d _; simp
  | cons a l ih =>
      intro k i d hik
      cases k with
      | zero => omega
      | succ m =>
          cases i with
          | zero => rfl
          | succ j => simpa using ih m j d (by omega)

theorem getD_drop (l : List Nat) : ∀ (k i d : Nat),
    (l.drop k).getD i d = l.getD (k + i) d := by
  induction l with
  | nil => intro k i d; simp
  | cons a l ih =>
      intro k i d
      cases k with
      | zero => simp
      | succ m =>
          have : m + 1 + i = (m + i) + 1 := by omega
          simp only [List.drop_succ_cons, this, List.getD_cons_succ]
          exact ih m i d

theorem encodeRawUnsafe_getD_div (step : Nat) (hstep8 : step ≤ 8) :
    ∀ (data buffer : List Nat), (∀ s ∈ buffer, s < 256) → ∀ i,
      (encodeRawUnsafe buffer data step).getD i 0 / 2 ^ step =
        buffer.getD i 0 / 2 ^ step := by
  intro data
  induction data with
  | nil => intro buffer _ i; rfl
  | cons b ds ih =>
      intro buffer hbuf i
      simp only [encodeRawUnsafe]
      have hbuflen : (encodeByteAux b step 0 buffer (bytes_per_byte step)).length =
        buffer.length := encodeByteAux_length b step buffer 0 _
      have hTlen : ((encodeByteAux b step 0 buffer (bytes_per_byte step)).take
          (bytes_per_byte step)).length = min (bytes_per_byte step) buffer.length := by
        rw [List.length_take, hbuflen]
      by_cases hiT : i < min (bytes_per_byte step) buffer.length
      · rw [List.getD_append _ _ _ _ (by omega)]
        rw [getD_take _ _ _ _ (by omega)]
        exact encodeByteAux_getD_div b step hstep8 buffer 0 (bytes_per_byte step) i hbuf
      · rw [List.getD_append_right _ _ _ _ (by omega), hTlen]
        rw [encodeByteAux_drop]
        by_cases hcap : bytes_per_byte step ≤ buffer.length
        · rw [ih (buffer.drop (bytes_per_byte step))
            (fun s hs => hbuf s (List.drop_subset _ _ hs))]
          rw [getD_drop]
          congr 2
          omega
        · rw [List.drop_eq_nil_of_le (by omega), encodeRawUnsafe_nil]
          rw [List.getD_nil, List.getD_eq_default _ _ (by omega)]

theorem encode_raw_eq_ok (buffer data : List Nat) (step : Nat) (out : List Nat) :
    encode_raw buffer data step = Except.ok out ↔
      data.length * bytes_per_byte step ≤ buffer.length ∧
        out = encodeRawUnsafe buffer data step := by
  unfold encode_raw
  by_cases h : buffer.length < data.length * bytes_per_byte step
  · rw [if_pos h]
    constructor
    · intro he; cases he
    · intro ⟨h1, _⟩; omega
  · rw [if_neg h]
    constructor
    · intro he
      cases he
      exact ⟨by omega, rfl⟩
    · intro ⟨_, h2⟩
      rw [h2]

theorem encode_raw_eq_error (buffer data : List Nat) (step : Nat) (e : BufferTooSmall) :
    encode_raw buffer data step = Except.error e ↔
      buffer.length < data.length * bytes_per_byte step ∧
        e = ⟨buffer.length, data.length * step⟩ := by
  unfold encode_raw
  by_cases h : buffer.length < data.length * bytes_per_byte step
  · rw [if_pos h]
    constructor
    · intro he
      cases he
      exact ⟨h, rfl⟩
    · intro ⟨_, h2⟩
      rw [h2]
  · rw [if_neg h]
    constructor
    · intro he; cases he
    · intro ⟨h1, _⟩; omega

theorem decode_raw_short_none (buffer : List Nat) (count step : Nat)
    (hshort : buffer.length < count * bytes_per_byte step) :
    decode_raw buffer count step = none := by
  have hn : ¬ count * bytes_per_byte step ≤ buffer.length := by omega
  cases h : decodeRawLoop buffer step (bytes_per_byte step) 0 count with
  | none => simp [decode_raw, h]
  | some out => simp [decode_raw, h, hn]

theorem decode_raw_encodeRawUnsafe (step : Nat) (hstep : 0 < step)
    (hbs : bytes_per_byte step * step = 8) (data buffer : List Nat)
    (hd : ∀ x ∈ data, x < 256) (hbuf : ∀ s ∈ buffer, s < 256)
    (hcap : data.length * bytes_per_byte step ≤ buffer.length) :
    decode_raw (encodeRawUnsafe buffer data step) data.length step =
      some ((encodeRawUnsafe buffer data step).drop (data.length * bytes_per_byte step),
        data) := by
  have hloop := decodeRawLoop_encodeRawUnsafe step hstep hbs data buffer hd hbuf hcap
  have hlen : (encodeRawUnsafe buffer data step).length = buffer.length :=
    encodeRawUnsafe_length step data buffer
  simp [decode_raw, hloop, hlen, hcap]

/-- Facts about the three step sizes the claims quantify over. -/
theorem step_facts (step : Nat) (hstep : step = 1 ∨ step = 2 ∨ step = 4) :
    0 < step ∧ bytes_per_byte step * step = 8 ∧ bytes_per_byte step = 8 / step ∧
      step ≤ 8 := by
  rcases hstep with h | h | h <;> subst h <;> refine ⟨by norm_num, by decide, by decide,
    by norm_num⟩

/-! ## The length field -/

theorem toBeBytes_length (n : Nat) : (toBeBytes n).length = WORD_SIZE := rfl

theorem toBeBytes_mem_lt (n : Nat) : ∀ x ∈ toBeBytes n, x < 256 := by
  intro x hx
  have h255 : ∀ y : Nat, y &&& 255 < 256 :=
    fun y => Nat.lt_of_le_of_lt Nat.and_le_right (by norm_num)
  simp only [toBeBytes, List.mem_cons, List.not_mem_nil, or_false] at hx
  rcases hx with h | h | h | h | h | h | h | h <;> subst h <;> exact h255 _

theorem fromBeBytes_toBeBytes (n : Nat) (h : n < 2 ^ 64) :
    fromBeBytes (toBeBytes n) = n := by
  have h255 : (255 : Nat) = 2 ^ 8 - 1 := by norm_num
  simp only [toBeBytes, fromBeBytes, List.foldl_cons, List.foldl_nil,
    Nat.shiftRight_eq_div_pow, h255, Nat.and_pow_two_sub_one_eq_mod]
  norm_num
  omega

/-! ## Sequential packing -/

theorem encodeRawUnsafe_append (step : Nat) :
    ∀ (d1 d2 buffer : List Nat), d1.length * bytes_per_byte step ≤ buffer.length →
      encodeRawUnsafe buffer (d1 ++ d2) step =
        (encodeRawUnsafe buffer d1 step).take (d1.length * bytes_per_byte step) ++
          encodeRawUnsafe (buffer.drop (d1.length * bytes_per_byte step)) d2 step := by
  intro d1
  induction d1 with
  | nil => intro d2 buffer _; simp [encodeRawUnsafe]
  | cons b ds ih =>
      intro d2 buffer hcap
      simp only [List.length_cons] at hcap
      have hexp : (ds.length + 1) * bytes_per_byte step =
          ds.length * bytes_per_byte step + bytes_per_byte step := by ring
      have hsple : bytes_per_byte step ≤ buffer.length := by omega
      have hbuflen : (encodeByteAux b step 0 buffer (bytes_per_byte step)).length =
        buffer.length := encodeByteAux_length b step buffer 0 _
      have hTlen : ((encodeByteAux b step 0 buffer (bytes_per_byte step)).take
          (bytes_per_byte step)).length = bytes_per_byte step := by
        rw [List.length_take]
        omega
      have hdropbuf : (encodeByteAux b step 0 buffer (bytes_per_byte step)).drop
          (bytes_per_byte step) = buffer.drop (bytes_per_byte step) :=
        encodeByteAux_drop b step buffer 0 _
      show encodeRawUnsafe buffer (b :: (ds ++ d2)) step = _
      simp only [encodeRawUnsafe, List.length_cons]
      rw [hdropbuf, ih d2 _ (by rw [List.length_drop]; omega)]
      have hlen2 : ((encodeByteAux b step 0 buffer (bytes_per_byte step)).take
          (bytes_per_byte step)).length ≤ (ds.length + 1) * bytes_per_byte step := by
        rw [hTlen]
        exact Nat.le_mul_of_pos_left _ (by omega)
      have key : (((encodeByteAux b step 0 buffer (bytes_per_byte step)).take
            (bytes_per_byte step)) ++
            encodeRawUnsafe (buffer.drop (bytes_per_byte step)) ds step).take
            ((ds.length + 1) * bytes_per_byte step) =
          ((encodeByteAux b step 0 buffer (bytes_per_byte step)).take
            (bytes_per_byte step)) ++
            (encodeRawUnsafe (buffer.drop (bytes_per_byte step)) ds step).take
              (ds.length * bytes_per_byte step) := by
        have harg : (ds.length + 1) * bytes_per_byte step - bytes_per_byte step =
            ds.length * bytes_per_byte step := by
          rw [hexp]
          omega
        rw [List.take_append_eq_append_take, hTlen, List.take_of_length_le hlen2, harg]
      have hdrop2 : buffer.drop ((ds.length + 1) * bytes_per_byte step) =
          (buffer.drop (bytes_per_byte step)).drop (ds.length * bytes_per_byte step) := by
        rw [List.drop_drop]
        congr 1
        omega
      rw [key, hdrop2, List.append_assoc]

/-! ## Claim theorems -/

/-- C1: Raw round-trip.  For every `step ∈ {1,2,4}`, payload `p` of bytes and
carrier of bytes, if `encode_raw` succeeds (which the claim's capacity bound
guarantees), then `decode_raw` of the packed carrier with `count = p.length`
and the same `step` returns exactly `p` (together with the untouched
remainder of the carrier). -/
theorem raw_round_trip (step : Nat) (hstep : step = 1 ∨ step = 2 ∨ step = 4)
    (p buffer out : List Nat) (hp : ∀ b ∈ p, b < 256) (hbuf : ∀ s ∈ buffer, s < 256)
    (henc : encode_raw buffer p step = Except.ok out) :
    decode_raw out p.length step = some (out.drop (p.length * (8 / step)), p) := by
  obtain ⟨hpos, hbs, hbpbeq, _⟩ := step_facts step hstep
  obtain ⟨hcap, hout⟩ := (encode_raw_eq_ok buffer p step out).mp henc
  subst hout
  rw [← hbpbeq]
  exact decode_raw_encodeRawUnsafe step hpos hbs p buffer hp hbuf hcap

theorem raw_round_trip_check :
    encode_raw [0, 0, 0, 0] [5] 2 = Except.ok [1, 1, 0, 0] ∧
      decode_raw [1, 1, 0, 0] 1 2 = some ([], [5]) :=
  ⟨by rfl, raw_round_trip 2 (by decide) [5] [0, 0, 0, 0] [1, 1, 0, 0]
    (by decide) (by decide) (by rfl)⟩

/-- C3: Exact capacity boundary.  `encode_raw` succeeds exactly when the
carrier holds at least `payload.length * (8 / step)` bytes, and fails with a
`BufferTooSmall` (the crate's capacity error) exactly otherwise — in
particular it succeeds at exactly the boundary and fails one byte below it. -/
theorem encode_raw_capacity (step : Nat) (hstep : step = 1 ∨ step = 2 ∨ step = 4)
    (p buffer : List Nat) :
    ((∃ out, encode_raw buffer p step = Except.ok out) ↔
        p.length * (8 / step) ≤ buffer.length) ∧
      ((∃ e, encode_raw buffer p step = Except.error e) ↔
        buffer.length < p.length * (8 / step)) := by
  obtain ⟨_, _, hbpbeq, _⟩ := step_facts step hstep
  constructor
  · constructor
    · rintro ⟨out, hout⟩
      obtain ⟨hcap, _⟩ := (encode_raw_eq_ok _ _ _ _).mp hout
      rwa [hbpbeq] at hcap
    · intro hcap
      exact ⟨_, (encode_raw_eq_ok _ _ _ _).mpr ⟨by rw [hbpbeq]; exact hcap, rfl⟩⟩
  · constructor
    · rintro ⟨e, he⟩
      obtain ⟨hcap, _⟩ := (encode_raw_eq_error _ _ _ _).mp he
      rwa [hbpbeq] at hcap
    · intro hcap
      exact ⟨_, (encode_raw_eq_error _ _ _ _).mpr ⟨by rw [hbpbeq]; exact hcap, rfl⟩⟩

theorem encode_raw_capacity_check :
    ((∃ out, encode_raw [0, 0, 0, 0] [9] 2 = Except.ok out) ↔
        (1 : Nat) * (8 / 2) ≤ 4) ∧
      ((∃ e, encode_raw [0, 0, 0, 0] [9] 2 = Except.error e) ↔ (4 : Nat) < 1 * (8 / 2)) := by
  have h := encode_raw_capacity 2 (by decide) [9] [0, 0, 0, 0]
  simpa using h

/-- C4 (code bug): the spec says `decode_raw` on a carrier shorter than
`count * (8 / step)` returns fewer than `count` bytes without error and an
empty remainder; the code instead panics — the final slice
`&buffer[size * bpb ..]` (or the chunk slice `&buffer[index .. index + bpb]`)
is out of range for every such carrier.  `none` models the panic. -/
theorem decode_raw_truncated_panics (step count : Nat)
    (hstep : step = 1 ∨ step = 2 ∨ step = 4) (buffer : List Nat)
    (hshort : buffer.length < count * (8 / step)) :
    decode_raw buffer count step = none := by
  obtain ⟨_, _, hbpbeq, _⟩ := step_facts step hstep
  exact decode_raw_short_none buffer count step (by rw [hbpbeq]; exact hshort)

theorem decode_raw_truncated_panics_check : decode_raw [] 1 1 = none :=
  decode_raw_truncated_panics 1 1 (by decide) [] (by decide)

/-- C5 (code bug): the spec says the framed `decode` always returns a result
value, reporting short carriers through capacity-style errors; the code
instead panics whenever the carrier cannot hold the `word_size`-byte length
field (and likewise when it is exhausted mid-payload), because the
`decode_raw` it calls slices out of range.  `none` models the panic. -/
theorem decode_framed_short_panics (step : Nat)
    (hstep : step = 1 ∨ step = 2 ∨ step = 4) (buffer : List Nat)
    (hshort : buffer.length < WORD_SIZE * (8 / step)) :
    decode buffer step = none := by
  obtain ⟨_, _, hbpbeq, _⟩ := step_facts step hstep
  have h1 : decode_raw buffer WORD_SIZE step = none :=
    decode_raw_short_none buffer WORD_SIZE step (by rw [hbpbeq]; exact hshort)
  simp [decode, h1]

theorem decode_framed_short_panics_check : decode [] 1 = none :=
  decode_framed_short_panics 1 (by decide) [] (by decide)

/-- C6: Non-destructive high bits.  When `encode_raw` succeeds, every
consumed carrier byte keeps its high `8 - step` bits: dividing the byte by
`2 ^ step` gives the same value before and after the pack. -/
theorem encode_raw_preserves_high_bits (step : Nat)
    (hstep : step = 1 ∨ step = 2 ∨ step = 4) (p buffer out : List Nat)
    (hbuf : ∀ s ∈ buffer, s < 256)
    (henc : encode_raw buffer p step = Except.ok out) :
    ∀ i, i < p.length * (8 / step) →
      out.getD i 0 / 2 ^ step = buffer.getD i 0 / 2 ^ step := by
  obtain ⟨_, _, _, hstep8⟩ := step_facts step hstep
  obtain ⟨_, hout⟩ := (encode_raw_eq_ok _ _ _ _).mp henc
  subst hout
  intro i _
  exact encodeRawUnsafe_getD_div step hstep8 p buffer hbuf i

theorem encode_raw_preserves_high_bits_check :
    encode_raw [171, 205] [3] 4 = Except.ok [163, 192] ∧
      (∀ i, i < 1 * (8 / 4) →
        [163, 192].getD i 0 / 2 ^ 4 = [171, 205].getD i 0 / 2 ^ 4) :=
  ⟨by rfl, encode_raw_preserves_high_bits 4 (by decide) [3] [171, 205] [163, 192]
    (by decide) (by rfl)⟩

/-- C7 (code bug): the spec says the capacity error carries the required
carrier length `payload.length * (8 / step)`; the code's guard does test
`data.len() * bytes_per_byte(step)`, but the error it builds reports
`required: data.len() * step`.  At carrier `[0,0,0]`, payload `[0]`,
`step = 2` the error reports `required = 2` although the guard demanded 4 —
the reported `required` is even smaller than `actual = 3`. -/
theorem encode_raw_error_required_field :
    encode_raw [0, 0, 0] [0] 2 = Except.error ⟨3, 2⟩ ∧ (2 : Nat) ≠ 1 * (8 / 2) := by
  exact ⟨by rfl, by decide⟩

/-- C9: Pack atomicity on error.  The capacity guard in `encode_raw` runs
before `encode_raw_unsafe` is called, so on the error path the carrier is
returned exactly as it was. -/
theorem encode_raw_error_no_mutation (buffer p : List Nat) (step : Nat)
    (e : BufferTooSmall) (herr : encode_raw buffer p step = Except.error e) :
    encode_raw_carrier_after buffer p step = buffer := by
  unfold encode_raw_carrier_after
  rw [herr]

theorem encode_raw_error_no_mutation_check :
    encode_raw [7] [1] 2 = Except.error ⟨1, 2⟩ ∧
      encode_raw_carrier_after [7] [1] 2 = [7] :=
  ⟨by rfl, encode_raw_error_no_mutation [7] [1] 2 ⟨1, 2⟩ (by rfl)⟩

/-- C10: Unconsumed carrier region untouched.  A successful `encode_raw`
mutates only the first `p.length * (8 / step)` carrier bytes; the remainder
it returns is bytewise the corresponding tail of the original carrier. -/
theorem encode_raw_remainder_untouched (step : Nat)
    (hstep : step = 1 ∨ step = 2 ∨ step = 4) (p buffer out : List Nat)
    (henc : encode_raw buffer p step = Except.ok out) :
    out.drop (p.length * (8 / step)) = buffer.drop (p.length * (8 / step)) := by
  obtain ⟨_, _, hbpbeq, _⟩ := step_facts step hstep
  obtain ⟨_, hout⟩ := (encode_raw_eq_ok _ _ _ _).mp henc
  subst hout
  rw [← hbpbeq]
  exact encodeRawUnsafe_drop step p buffer

theorem encode_raw_remainder_untouched_check :
    encode_raw [9, 9, 9, 9, 8, 7] [5] 2 = Except.ok [9, 9, 8, 8, 8, 7] ∧
      [9, 9, 8, 8, 8, 7].drop (1 * (8 / 2)) = [9, 9, 9, 9, 8, 7].drop (1 * (8 / 2)) :=
  ⟨by rfl, encode_raw_remainder_untouched 2 (by decide) [5] [9, 9, 9, 9, 8, 7]
    [9, 9, 8, 8, 8, 7] (by rfl)⟩

/-- C8: Concrete example.  With `step = 4` and payload `[0x48, 0x69]`
("Hi"), packing into a zeroed 4-byte carrier yields `[0x08, 0x04, 0x09, 0x06]`
(low nibbles hold successive 4-bit groups, least-significant group first),
and unpacking that carrier with `count = 2, step = 4` returns `[0x48, 0x69]`
with an empty remainder. -/
theorem concrete_hi_example :
    encode_raw [0, 0, 0, 0] [0x48, 0x69] 4 = Except.ok [0x08, 0x04, 0x09, 0x06] ∧
      decode_raw [0x08, 0x04, 0x09, 0x06] 2 4 = some ([], [0x48, 0x69]) :=
  ⟨by rfl, by rfl⟩

/-- A successful framed `encode` writes the length field and then the
payload: the resulting carrier is exactly the raw pack of
`toBeBytes p.length ++ p`. -/
theorem encode_ok (step : Nat) (p buffer : List Nat)
    (hcap : (p.length + WORD_SIZE) * bytes_per_byte step ≤ buffer.length) :
    encode buffer p step =
      Except.ok (encodeRawUnsafe buffer (toBeBytes p.length ++ p) step) := by
  have hexp : (p.length + WORD_SIZE) * bytes_per_byte step =
      p.length * bytes_per_byte step + WORD_SIZE * bytes_per_byte step := by ring
  have hS : (toBeBytes p.length).length = WORD_SIZE := rfl
  have hcap8 : (toBeBytes p.length).length * bytes_per_byte step ≤ buffer.length := by
    rw [hS]
    omega
  have h1 : encode_raw buffer (toBeBytes p.length) step =
      Except.ok (encodeRawUnsafe buffer (toBeBytes p.length) step) :=
    (encode_raw_eq_ok _ _ _ _).mpr ⟨hcap8, rfl⟩
  have hdrop1 : (encodeRawUnsafe buffer (toBeBytes p.length) step).drop
      ((toBeBytes p.length).length * bytes_per_byte step) =
      buffer.drop ((toBeBytes p.length).length * bytes_per_byte step) :=
    encodeRawUnsafe_drop step (toBeBytes p.length) buffer
  have hcapp : p.length * bytes_per_byte step ≤
      (buffer.drop ((toBeBytes p.length).length * bytes_per_byte step)).length := by
    rw [List.length_drop, hS]
    omega
  have h2 : encode_raw
      (buffer.drop ((toBeBytes p.length).length * bytes_per_byte step)) p step =
      Except.ok (encodeRawUnsafe
        (buffer.drop ((toBeBytes p.length).length * bytes_per_byte step)) p step) :=
    (encode_raw_eq_ok _ _ _ _).mpr ⟨hcapp, rfl⟩
  simp only [encode, h1, hdrop1, h2,
    encodeRawUnsafe_append step (toBeBytes p.length) p buffer hcap8]

/-- C2: Framed round-trip.  For every `step ∈ {1,2,4}`, payload `p` of bytes
(with a length that fits a 64-bit `usize`) and carrier of bytes of length at
least `(p.length + WORD_SIZE) * (8 / step)`, if the framed `encode` succeeds
then the framed `decode` of the resulting carrier returns `Ok p`. -/
theorem framed_round_trip (step : Nat) (hstep : step = 1 ∨ step = 2 ∨ step = 4)
    (p buffer out : List Nat) (hp : ∀ b ∈ p, b < 256) (hbuf : ∀ s ∈ buffer, s < 256)
    (hword : p.length < 2 ^ 64)
    (hcap : (p.length + WORD_SIZE) * (8 / step) ≤ buffer.length)
    (henc : encode buffer p step = Except.ok out) :
    decode out step = some (Except.ok p) := by
  obtain ⟨hpos, hbs, hbpbeq, hstep8⟩ := step_facts step hstep
  rw [← hbpbeq] at hcap
  rw [encode_ok step p buffer hcap] at henc
  have hout : encodeRawUnsafe buffer (toBeBytes p.length ++ p) step = out :=
    Except.ok.inj henc
  subst hout
  have hbpb0 : 0 < bytes_per_byte step := by
    rcases Nat.eq_zero_or_pos (bytes_per_byte step) with h | h
    · rw [h] at hbs
      simp at hbs
    · exact h
  have hS : (toBeBytes p.length).length = WORD_SIZE := rfl
  have hexp : (p.length + WORD_SIZE) * bytes_per_byte step =
      p.length * bytes_per_byte step + WORD_SIZE * bytes_per_byte step := by ring
  have hcap8 : WORD_SIZE * bytes_per_byte step ≤ buffer.length := by omega
  have hlenE : (encodeRawUnsafe buffer (toBeBytes p.length ++ p) step).length =
      buffer.length := encodeRawUnsafe_length step _ buffer
  have hlenS : (encodeRawUnsafe buffer (toBeBytes p.length) step).length =
      buffer.length := encodeRawUnsafe_length step _ buffer
  have hsplit : encodeRawUnsafe buffer (toBeBytes p.length ++ p) step =
      (encodeRawUnsafe buffer (toBeBytes p.length) step).take
        (WORD_SIZE * bytes_per_byte step) ++
        encodeRawUnsafe (buffer.drop (WORD_SIZE * bytes_per_byte step)) p step := by
    have h := encodeRawUnsafe_append step (toBeBytes p.length) p buffer
      (by rw [hS]; omega)
    rwa [hS] at h
  have hAlen : ((encodeRawUnsafe buffer (toBeBytes p.length) step).take
      (WORD_SIZE * bytes_per_byte step)).length = WORD_SIZE * bytes_per_byte step := by
    rw [List.length_take, hlenS]
    omega
  have htakeE : (encodeRawUnsafe buffer (toBeBytes p.length ++ p) step).take
      (WORD_SIZE * bytes_per_byte step) =
      (encodeRawUnsafe buffer (toBeBytes p.length) step).take
        (WORD_SIZE * bytes_per_byte step) := by
    rw [hsplit, List.take_left' hAlen]
  have hagree : decodeRawLoop (encodeRawUnsafe buffer (toBeBytes p.length ++ p) step)
      step (bytes_per_byte step) 0 WORD_SIZE =
      decodeRawLoop (encodeRawUnsafe buffer (toBeBytes p.length) step)
        step (bytes_per_byte step) 0 WORD_SIZE :=
    decodeRawLoop_agree step (bytes_per_byte step) hbpb0 WORD_SIZE 0
      (WORD_SIZE * bytes_per_byte step) _ _ (by omega) htakeE
      (by rw [hlenE]; omega) (by rw [hlenS]; omega)
  have hloopS : decodeRawLoop (encodeRawUnsafe buffer (toBeBytes p.length) step)
      step (bytes_per_byte step) 0 WORD_SIZE = some (toBeBytes p.length) := by
    have h := decodeRawLoop_encodeRawUnsafe step hpos hbs (toBeBytes p.length) buffer
      (toBeBytes_mem_lt p.length) hbuf (by rw [hS]; omega)
    rwa [hS] at h
  have hdr1 : decode_raw (encodeRawUnsafe buffer (toBeBytes p.length ++ p) step)
      WORD_SIZE step =
      some ((encodeRawUnsafe buffer (toBeBytes p.length ++ p) step).drop
        (WORD_SIZE * bytes_per_byte step), toBeBytes p.length) := by
    simp only [decode_raw, hagree, hloopS]
    rw [if_pos (by rw [hlenE]; omega)]
  have hdropE : (encodeRawUnsafe buffer (toBeBytes p.length ++ p) step).drop
      (WORD_SIZE * bytes_per_byte step) =
      encodeRawUnsafe (buffer.drop (WORD_SIZE * bytes_per_byte step)) p step := by
    rw [hsplit, List.drop_left' hAlen]
  have hfrom : fromBeBytes (toBeBytes p.length) = p.length :=
    fromBeBytes_toBeBytes p.length hword
  have hdr2 : decode_raw
      (encodeRawUnsafe (buffer.drop (WORD_SIZE * bytes_per_byte step)) p step)
      p.length step =
      some ((encodeRawUnsafe (buffer.drop (WORD_SIZE * bytes_per_byte step)) p
        step).drop (p.length * bytes_per_byte step), p) :=
    decode_raw_encodeRawUnsafe step hpos hbs p _ hp
      (fun s hs => hbuf s (List.drop_subset _ _ hs))
      (by rw [List.length_drop]; omega)
  simp only [decode, hdr1, hS, hdropE, hfrom, hdr2, ne_eq, not_true_eq_false,
    if_false, ite_false]

theorem framed_round_trip_check :
    encode (List.replicate 18 0) [7] 4 =
      Except.ok [0, 0, 0, 0, 0, 0, 0, 0, 0, 0, 0, 0, 0, 0, 1, 0, 7, 0] ∧
      decode [0, 0, 0, 0, 0, 0, 0, 0, 0, 0, 0, 0, 0, 0, 1, 0, 7, 0] 4 =
        some (Except.ok [7]) :=
  ⟨by rfl, framed_round_trip 4 (by decide) [7] (List.replicate 18 0) _
    (by decide) (by decide) (by decide) (by decide) (by rfl)⟩

end Stego
